import Mathlib

/-!
Verification of the quark online-judge grading backend.

This file gives a shallow embedding, in Lean, of the parts of the quark
grader and runner that the specification talks about: the verdict algebra
(`worseVerdict` and `sliceIndex`), the run-context retry logic (`Requeue`),
the three-priority queue (`enqueue` / `GetRun`), the grading pipeline's
compile phase, per-case aggregation, group validation and final verdict
rewrite, the output-only submission decoder (`parseOutputOnlyFile`), and the
v1-compat run injection. Machine floats are modelled as rationals, `int64`
as `Int`, Go maps as functions into `Option`, and a Go panic as `none` /
a dedicated constructor.
-/

namespace Quark

/-! ## Verdict algebra (runner, `worseVerdict` / `sliceIndex`) -/

/-- List of verdict strings ordered from worst to best, exactly as in the
source of `worseVerdict`. -/
def verdictList : List String :=
  ["JE", "CE", "MLE", "RFE", "RTE", "TLE", "OLE", "WA", "PA", "AC", "OK"]

/-- Loop of `sliceIndex`, with the remaining iteration count made explicit:
scans indices `i, i+1, ...` until the predicate holds, returning `-1` when
the budget runs out (the Go loop bound `limit`). -/
def sliceIndexAux (pred : Nat → Bool) : Nat → Nat → Int
  | _, 0 => -1
  | i, fuel + 1 => if pred i then (i : Int) else sliceIndexAux pred (i + 1) fuel

/-- Translation of `sliceIndex`: first index `i < limit` satisfying the
predicate, and `-1` when there is none. -/
def sliceIndex (limit : Nat) (pred : Nat → Bool) : Int :=
  sliceIndexAux pred 0 limit

/-- Index of a verdict string inside `verdictList`, computed through
`sliceIndex` just as `worseVerdict` does; `-1` for unknown strings. -/
def verdictIndex (a : String) : Int :=
  sliceIndex verdictList.length (fun i => verdictList.getD i "" == a)

/-- Translation of `worseVerdict`: look both strings up, take the minimum
index, and index into `verdictList`. A negative (or otherwise out-of-range)
index makes the Go slice access panic, which is modelled by `none`. -/
def worseVerdict (a b : String) : Option String :=
  let m := min (verdictIndex a) (verdictIndex b)
  if m < 0 then none else verdictList.get? m.toNat

/-- Membership form of `List.getD` needed below. -/
theorem getD_mem_of_lt {l : List String} {j : Nat} (hj : j < l.length) :
    l.getD j "" ∈ l := by
  rw [List.getD_eq_getElem?_getD, List.getElem?_eq_getElem hj]
  exact List.getElem_mem hj

/-- Failure case of the `sliceIndex` loop: if the predicate is false on the
whole scanned window, the result is `-1`. -/
theorem sliceIndexAux_neg (pred : Nat → Bool) :
    ∀ fuel start : Nat, (∀ j, j < fuel → pred (start + j) = false) →
      sliceIndexAux pred start fuel = -1 := by
  intro fuel
  induction fuel with
  | zero => intro start _; rfl
  | succ n ih =>
    intro start h
    have h0 : pred start = false := by simpa using h 0 (Nat.succ_pos n)
    rw [sliceIndexAux, h0]
    simp only [Bool.false_eq_true, if_false]
    exact ih (start + 1)
      (fun j hj => by
        have := h (j + 1) (Nat.succ_lt_succ hj)
        simpa [Nat.add_assoc, Nat.add_comm, Nat.add_left_comm] using this)

/-- Strings outside `verdictList` get index `-1`. -/
theorem verdictIndex_of_not_mem {a : String} (h : a ∉ verdictList) :
    verdictIndex a = -1 := by
  rw [verdictIndex, sliceIndex]
  apply sliceIndexAux_neg
  intro j hj
  have hm : verdictList.getD (0 + j) "" ∈ verdictList :=
    getD_mem_of_lt (by simpa using hj)
  exact beq_eq_false_iff_ne.mpr fun e => h (e ▸ hm)

/-- Evaluation of `worseVerdict` on known verdicts: it picks the argument
with the smaller index (ties favouring the first argument). -/
theorem worseVerdict_pick :
    ∀ a ∈ verdictList, ∀ b ∈ verdictList,
      worseVerdict a b =
        some (if verdictIndex a ≤ verdictIndex b then a else b) := by decide

/-- Indices determine known verdicts. -/
theorem verdictIndex_inj :
    ∀ a ∈ verdictList, ∀ b ∈ verdictList,
      verdictIndex a = verdictIndex b → a = b := by decide

/-- C4: counterexample. The claim says `worseVerdict` is total for all input
strings, treating an unknown string as the worst verdict and never reaching
the out-of-bounds indexing. In the code an unknown string gets index `-1`,
`min` propagates it, and the slice access `verdictList[-1]` panics (modelled
as `none`): on input `("XX", "AC")` no verdict is returned. -/
theorem C4_counterexample : worseVerdict "XX" "AC" = none := by decide

/-- C4 (amended): over the eleven known verdict strings, `worseVerdict a b`
returns `verdictList[min(index a, index b)]` and is always defined; but when
either argument is not a known verdict its index is `-1`, the minimum is
negative, and the indexing is out of bounds (a Go panic, modelled as
`none`), so the function is not total and the out-of-bounds branch is
reachable. -/
theorem C4_amended :
    (∀ a ∈ verdictList, ∀ b ∈ verdictList,
        worseVerdict a b =
          verdictList.get? (min (verdictIndex a) (verdictIndex b)).toNat ∧
        (worseVerdict a b).isSome = true) ∧
    (∀ a b : String, a ∉ verdictList ∨ b ∉ verdictList →
        worseVerdict a b = none) := by
  constructor
  · decide
  · intro a b h
    have hm : min (verdictIndex a) (verdictIndex b) < 0 := by
      rcases h with h | h
      · exact lt_of_le_of_lt (min_le_left _ _)
          (by rw [verdictIndex_of_not_mem h]; norm_num)
      · exact lt_of_le_of_lt (min_le_right _ _)
          (by rw [verdictIndex_of_not_mem h]; norm_num)
    rw [worseVerdict]
    simp only [hm, if_true]

/-- Closed witness for `C4_amended` at concrete inputs. -/
theorem C4_amended_witness :
    worseVerdict "WA" "AC" =
      verdictList.get? (min (verdictIndex "WA") (verdictIndex "AC")).toNat ∧
    worseVerdict "ZZ" "AC" = none := by
  refine ⟨(C4_amended.1 "WA" (by decide) "AC" (by decide)).1, ?_⟩
  exact C4_amended.2 "ZZ" "AC" (Or.inl (by decide))

/-- Folding `worseVerdict` from a known verdict over known verdicts yields
the member of the sequence with the smallest index. -/
theorem foldlM_worseVerdict_spec :
    ∀ (t : List String) (v0 : String), v0 ∈ verdictList →
      (∀ v ∈ t, v ∈ verdictList) →
      ∃ w, t.foldlM worseVerdict v0 = some w ∧ w ∈ v0 :: t ∧
        ∀ v ∈ v0 :: t, verdictIndex w ≤ verdictIndex v := by
  intro t
  induction t with
  | nil =>
    intro v0 hv0 _
    refine ⟨v0, rfl, List.mem_cons_self _ _, ?_⟩
    intro v hv
    rcases List.mem_cons.mp hv with rfl | hv
    · exact le_refl _
    · cases hv
  | cons c t ih =>
    intro v0 hv0 hall
    have hc : c ∈ verdictList := hall c (List.mem_cons_self c t)
    have hrest : ∀ v ∈ t, v ∈ verdictList :=
      fun v hv => hall v (List.mem_cons_of_mem _ hv)
    have hpick := worseVerdict_pick v0 hv0 c hc
    set p := if verdictIndex v0 ≤ verdictIndex c then v0 else c with hp
    have hpmem : p ∈ verdictList := by
      rw [hp]; split <;> assumption
    have hple0 : verdictIndex p ≤ verdictIndex v0 := by
      rw [hp]; split <;> omega
    have hplec : verdictIndex p ≤ verdictIndex c := by
      rw [hp]; split <;> omega
    have hfold : (c :: t).foldlM worseVerdict v0 = t.foldlM worseVerdict p := by
      rw [List.foldlM_cons, hpick]
      rfl
    obtain ⟨w, hw1, hw2, hw3⟩ := ih p hpmem hrest
    have hwle : verdictIndex w ≤ verdictIndex p := hw3 p (List.mem_cons_self _ _)
    refine ⟨w, by rw [hfold]; exact hw1, ?_, ?_⟩
    · rcases List.mem_cons.mp hw2 with rfl | hwt
      · rw [hp]; split
        · exact List.mem_cons_self _ _
        · exact List.mem_cons_of_mem _ (List.mem_cons_self _ _)
      · exact List.mem_cons_of_mem _ (List.mem_cons_of_mem _ hwt)
    · intro v hv
      rcases List.mem_cons.mp hv with rfl | hv
      · exact le_trans hwle hple0
      · rcases List.mem_cons.mp hv with rfl | hv
        · exact le_trans hwle hplec
        · exact hw3 v (List.mem_cons_of_mem _ hv)

/-- C8: over the eleven known verdict strings, `worseVerdict` is
associative, commutative and idempotent, and folding it over a non-empty
sequence of case verdicts yields the worst (smallest-index) verdict that
occurs in the sequence. -/
theorem C8_verdict_algebra :
    (∀ a ∈ verdictList, ∀ b ∈ verdictList, ∀ c ∈ verdictList,
        (worseVerdict a b).bind (fun x => worseVerdict x c) =
        (worseVerdict b c).bind (fun x => worseVerdict a x)) ∧
    (∀ a ∈ verdictList, ∀ b ∈ verdictList,
        worseVerdict a b = worseVerdict b a) ∧
    (∀ a ∈ verdictList, worseVerdict a a = some a) ∧
    (∀ (v0 : String) (t : List String), v0 ∈ verdictList →
        (∀ v ∈ t, v ∈ verdictList) →
        ∃ w, t.foldlM worseVerdict v0 = some w ∧ w ∈ v0 :: t ∧
          ∀ v ∈ v0 :: t, verdictIndex w ≤ verdictIndex v) := by
  refine ⟨by decide, by decide, by decide, ?_⟩
  intro v0 t hv0 ht
  exact foldlM_worseVerdict_spec t v0 hv0 ht

/-- Closed witness for `C8_verdict_algebra` at concrete verdicts. -/
theorem C8_verdict_algebra_witness :
    ((worseVerdict "WA" "RTE").bind (fun x => worseVerdict x "AC") =
     (worseVerdict "RTE" "AC").bind (fun x => worseVerdict "WA" x)) ∧
    worseVerdict "TLE" "AC" = worseVerdict "AC" "TLE" ∧
    worseVerdict "PA" "PA" = some "PA" ∧
    ∃ w, ["AC", "TLE"].foldlM worseVerdict "WA" = some w ∧
      w ∈ ["WA", "AC", "TLE"] ∧
      ∀ v ∈ ["WA", "AC", "TLE"], verdictIndex w ≤ verdictIndex v := by
  obtain ⟨h1, h2, h3, h4⟩ := C8_verdict_algebra
  exact ⟨h1 "WA" (by decide) "RTE" (by decide) "AC" (by decide),
    h2 "TLE" (by decide) "AC" (by decide),
    h3 "PA" (by decide),
    h4 "WA" ["AC", "TLE"] (by decide) (by decide)⟩

/-! ## Priority queue (grader, `Queue` / `enqueue` / `GetRun`) -/

/-- Three queue priorities, ordered High, Normal, Low as in the source. -/
inductive QPriority where
  | high
  | normal
  | low
deriving DecidableEq, Repr

/-- State of one named `Queue`: three bounded FIFOs (Go buffered channels,
front of the list = next to be received), the common FIFO capacity
(`channelLength`), and the number of outstanding readiness tokens (the
buffered `ready` channel). Runs are identified by a number. -/
structure QueueState where
  high : List Nat
  normal : List Nat
  low : List Nat
  cap : Nat
  ready : Nat
deriving DecidableEq, Repr

/-- FIFO selected by a priority. -/
def QueueState.fifo (q : QueueState) : QPriority → List Nat
  | .high => q.high
  | .normal => q.normal
  | .low => q.low

/-- Replacement of the FIFO selected by a priority. -/
def QueueState.setFifo (q : QueueState) (p : QPriority) (l : List Nat) :
    QueueState :=
  match p with
  | .high => { q with high := l }
  | .normal => { q with normal := l }
  | .low => { q with low := l }

/-- Translation of `Queue.enqueue`: if the chosen FIFO has space, append the
run and emit one readiness token, returning true; otherwise return false and
leave the queue unchanged. -/
def enqueue (q : QueueState) (r : Nat) (p : QPriority) : Bool × QueueState :=
  if (q.fifo p).length < q.cap then
    (true,
      { q.setFifo p (q.fifo p ++ [r]) with
        ready := (q.setFifo p (q.fifo p ++ [r])).ready + 1 })
  else
    (false, q)

/-- Translation of `Queue.enqueueBlocking`: the run is appended at its own
priority and one readiness token is emitted; the Go version blocks until the
FIFO has space, so the model is meaningful under the space hypothesis. -/
def enqueueBlocking (q : QueueState) (r : Nat) (p : QPriority) : QueueState :=
  { q.setFifo p (q.fifo p ++ [r]) with
    ready := (q.setFifo p (q.fifo p ++ [r])).ready + 1 }

/-- Outcome of `Queue.GetRun`: the call blocks when no readiness token is
available, panics when a token was consumed but the High → Normal → Low scan
finds all FIFOs empty, and otherwise returns a run and the new state. -/
inductive GetRunResult where
  | blocked
  | found (r : Nat) (q : QueueState)
  | panicked
deriving DecidableEq, Repr

/-- Translation of `Queue.GetRun`: consume one readiness token, then scan the
three FIFOs in strict priority order and return the first available run. -/
def GetRun (q : QueueState) : GetRunResult :=
  if q.ready = 0 then
    .blocked
  else
    match q.high with
    | r :: rest => .found r { q with high := rest, ready := q.ready - 1 }
    | [] =>
      match q.normal with
      | r :: rest => .found r { q with normal := rest, ready := q.ready - 1 }
      | [] =>
        match q.low with
        | r :: rest => .found r { q with low := rest, ready := q.ready - 1 }
        | [] => .panicked

/-- Queue invariant from the spec: the outstanding readiness-token count
equals the sum of the three per-priority FIFO depths. -/
def QueueInv (q : QueueState) : Prop :=
  q.ready = q.high.length + q.normal.length + q.low.length

/-- C9: `enqueue` pairs each successful insertion with exactly one readiness
token and fails, inserting nothing, only when the chosen FIFO is full;
`enqueueBlocking` does the same once the FIFO has space; both preserve the
invariant `ready = |High| + |Normal| + |Low|`, and under that invariant a
`GetRun` that consumed a readiness token always finds a run — the panic
branch after the scan is unreachable — returning the head of the
highest-priority non-empty FIFO and preserving the invariant. -/
theorem C9_queue_invariant :
    (∀ q r p, QueueInv q → QueueInv (enqueue q r p).2) ∧
    (∀ q r p, (enqueue q r p).1 = false →
        q.cap ≤ (q.fifo p).length ∧ (enqueue q r p).2 = q) ∧
    (∀ q r p, (q.fifo p).length < q.cap → QueueInv q →
        QueueInv (enqueueBlocking q r p)) ∧
    (∀ q : QueueState, QueueInv q → GetRun q ≠ .panicked) ∧
    (∀ q : QueueState, QueueInv q → q.ready ≠ 0 →
        ∃ r q', GetRun q = .found r q' ∧ QueueInv q' ∧
          ((q.high ≠ [] → some r = q.high.head?) ∧
           (q.high = [] → q.normal ≠ [] → some r = q.normal.head?) ∧
           (q.high = [] → q.normal = [] → some r = q.low.head?))) := by
  refine ⟨?_, ?_, ?_, ?_, ?_⟩
  · intro q r p hq
    rw [enqueue]
    split
    · cases p <;>
        simp_all [QueueInv, QueueState.fifo, QueueState.setFifo] <;> omega
    · exact hq
  · intro q r p h
    rw [enqueue] at h ⊢
    split at h
    · cases h
    · refine ⟨by omega, ?_⟩
      split
      · omega
      · rfl
  · intro q r p hspace hq
    cases p <;>
      simp_all [QueueInv, enqueueBlocking, QueueState.fifo,
        QueueState.setFifo] <;> omega
  · intro q hq hpanic
    obtain ⟨qh, qn, ql, qc, qr⟩ := q
    rw [QueueInv] at hq
    simp only at hq hpanic
    rcases qh with _ | ⟨r1, t1⟩ <;> rcases qn with _ | ⟨r2, t2⟩ <;>
      rcases ql with _ | ⟨r3, t3⟩
    · simp only [List.length_nil] at hq
      rw [GetRun] at hpanic
      simp [hq] at hpanic
    all_goals {
      have hqr : qr ≠ 0 := by simp at hq; omega
      rw [GetRun] at hpanic
      simp [hqr] at hpanic
    }
  · intro q hq hr
    obtain ⟨qh, qn, ql, qc, qr⟩ := q
    rw [QueueInv] at hq
    simp only at hq hr
    rcases qh with _ | ⟨r1, t1⟩
    · rcases qn with _ | ⟨r2, t2⟩
      · rcases ql with _ | ⟨r3, t3⟩
        · exact absurd (by simpa using hq) hr
        · refine ⟨r3, ⟨[], [], t3, qc, qr - 1⟩, ?_, ?_, ?_, ?_, ?_⟩
          · rw [GetRun]
            simp [hr]
          · rw [QueueInv]
            simp at hq ⊢
            omega
          · exact fun h => absurd rfl h
          · exact fun _ h => absurd rfl h
          · exact fun _ _ => rfl
      · refine ⟨r2, ⟨[], t2, ql, qc, qr - 1⟩, ?_, ?_, ?_, ?_, ?_⟩
        · rw [GetRun]
          simp [hr]
        · rw [QueueInv]
          simp at hq ⊢
          omega
        · exact fun h => absurd rfl h
        · exact fun _ _ => rfl
        · exact fun _ h => nomatch h
    · refine ⟨r1, ⟨t1, qn, ql, qc, qr - 1⟩, ?_, ?_, ?_, ?_, ?_⟩
      · rw [GetRun]
        simp [hr]
      · rw [QueueInv]
        simp at hq ⊢
        omega
      · exact fun _ => rfl
      · exact fun h => nomatch h
      · exact fun h => nomatch h

/-- Closed witness for `C9_queue_invariant` on a concrete queue state. -/
theorem C9_queue_invariant_witness :
    QueueInv (enqueue ⟨[7], [], [3], 4, 2⟩ 9 QPriority.normal).2 ∧
    GetRun ⟨[7], [], [3], 4, 2⟩ ≠ GetRunResult.panicked ∧
    ∃ r q', GetRun ⟨[7], [], [3], 4, 2⟩ = GetRunResult.found r q' ∧
      QueueInv q' ∧
      ((QueueState.high ⟨[7], [], [3], 4, 2⟩ ≠ [] →
          some r = (QueueState.high ⟨[7], [], [3], 4, 2⟩).head?) ∧
       (QueueState.high ⟨[7], [], [3], 4, 2⟩ = [] →
          QueueState.normal ⟨[7], [], [3], 4, 2⟩ ≠ [] →
          some r = (QueueState.normal ⟨[7], [], [3], 4, 2⟩).head?) ∧
       (QueueState.high ⟨[7], [], [3], 4, 2⟩ = [] →
          QueueState.normal ⟨[7], [], [3], 4, 2⟩ = [] →
          some r = (QueueState.low ⟨[7], [], [3], 4, 2⟩).head?)) := by
  obtain ⟨h1, _, _, h4, h5⟩ := C9_queue_invariant
  exact ⟨h1 ⟨[7], [], [3], 4, 2⟩ 9 QPriority.normal (by rw [QueueInv]; rfl),
    h4 ⟨[7], [], [3], 4, 2⟩ (by rw [QueueInv]; rfl),
    h5 ⟨[7], [], [3], 4, 2⟩ (by rw [QueueInv]; rfl) (by decide)⟩

/-! ## Run context retry logic (grader, `RunContext.Requeue` / `Close`) -/

/-- State of a `RunContext` together with the part of its queue that
`Requeue` touches. `closeCount` counts the effective closes so that
"closed exactly once" is expressible; `inMonitor` models the `monitor`
pointer being non-nil; `highLen`/`highCap` model the High-priority FIFO of
the owning queue. -/
structure RunContextState where
  tries : Int
  closed : Bool
  closeCount : Nat
  verdict : String
  attemptID : Nat
  inMonitor : Bool
  highLen : Nat
  highCap : Nat
deriving DecidableEq, Repr

/-- Translation of `RunContext.Close`: the compare-and-swap on `closed`
makes it a no-op the second time; closing removes the run from the monitor
and keeps the verdict it had at that time. -/
def Close (s : RunContextState) : RunContextState :=
  if s.closed then s
  else { s with closed := true, closeCount := s.closeCount + 1,
                inMonitor := false }

/-- Translation of `RunContext.Requeue`: remove from the monitor, decrement
`tries` and close when it reaches zero; otherwise (clamping `tries` to 1 on
`lastAttempt`) mint a fresh attempt id and enqueue at High priority, closing
instead when that FIFO is full. -/
def Requeue (lastAttempt : Bool) (s : RunContextState) :
    Bool × RunContextState :=
  let s := if s.inMonitor then { s with inMonitor := false } else s
  let s := { s with tries := s.tries - 1 }
  if s.tries ≤ 0 then
    (false, Close s)
  else
    let s := if lastAttempt then { s with tries := 1 } else s
    let s := { s with attemptID := s.attemptID + 1 }
    if s.highLen < s.highCap then
      (true, { s with highLen := s.highLen + 1 })
    else
      (false, Close s)

/-- Translation of `NewEmptyRunContext` restricted to the modelled fields:
`tries` starts at `MaxGradeRetries`, the verdict defaults to `JE`, and the
context is open and not yet dispatched. The High-priority FIFO of the
owning queue starts with `highLen` runs out of `highCap`. -/
def NewEmptyRunContext (maxGradeRetries : Int) (highLen highCap : Nat) :
    RunContextState :=
  { tries := maxGradeRetries, closed := false, closeCount := 0,
    verdict := "JE", attemptID := 0, inMonitor := false,
    highLen := highLen, highCap := highCap }

/-- Iterated calls of `Requeue(false)`. -/
def requeueIter : Nat → RunContextState → RunContextState
  | 0, s => s
  | k + 1, s => (Requeue false (requeueIter k s)).2

/-- Closed form of the first `j < n` calls of `Requeue(false)` on a fresh
context with `tries = n` and an initially empty High FIFO of capacity at
least `n`: every call so far succeeded, decrementing `tries`, minting a new
attempt id and growing the High FIFO. -/
theorem requeueIter_closed_form (n cap : Nat) (hcap : n ≤ cap) :
    ∀ j : Nat, j < n →
      requeueIter j (NewEmptyRunContext (n : Int) 0 cap) =
        { tries := (n : Int) - j, closed := false, closeCount := 0,
          verdict := "JE", attemptID := j, inMonitor := false,
          highLen := j, highCap := cap } := by
  intro j
  induction j with
  | zero =>
    intro _
    simp [requeueIter, NewEmptyRunContext]
  | succ k ih =>
    intro hk
    have hk' : k < n := Nat.lt_of_succ_lt hk
    rw [requeueIter, ih hk']
    have h1 : ¬((n : Int) - k - 1 ≤ 0) := by
      have : (k : Int) + 1 < n := by exact_mod_cast hk
      omega
    have h2 : k < cap := lt_of_lt_of_le hk' hcap
    simp only [Requeue, Bool.false_eq_true, if_false, h1, h2, if_true]
    simp [RunContextState.mk.injEq]
    omega

/-- C2 (amended): on a `RunContext` created with `tries = MaxGradeRetries`
(`= n ≥ 1`), with space in the High-priority FIFO, each of the first `n - 1`
calls to `Requeue(false)` returns true and re-enqueues the run at High
priority without closing it, and already the `n`-th call — not the
`(n+1)`-th — closes the context (exactly once, with the verdict it carries
at that time, here the initial `JE`) and returns false. -/
theorem C2_requeue_amended (n cap : Nat) (hn : 1 ≤ n) (hcap : n ≤ cap) :
    (∀ j : Nat, j + 1 < n →
      (Requeue false
          (requeueIter j (NewEmptyRunContext (n : Int) 0 cap))).1 = true ∧
      requeueIter (j + 1) (NewEmptyRunContext (n : Int) 0 cap) =
        { tries := (n : Int) - (j + 1), closed := false, closeCount := 0,
          verdict := "JE", attemptID := j + 1, inMonitor := false,
          highLen := j + 1, highCap := cap }) ∧
    (Requeue false
        (requeueIter (n - 1) (NewEmptyRunContext (n : Int) 0 cap))).1 =
      false ∧
    requeueIter n (NewEmptyRunContext (n : Int) 0 cap) =
      { tries := 0, closed := true, closeCount := 1, verdict := "JE",
        attemptID := n - 1, inMonitor := false, highLen := n - 1,
        highCap := cap } := by
  have step : ∀ j : Nat, j + 1 < n →
      (Requeue false
          (requeueIter j (NewEmptyRunContext (n : Int) 0 cap))).1 = true := by
    intro j hj
    rw [requeueIter_closed_form n cap hcap j (by omega)]
    have h1 : ¬((n : Int) - j - 1 ≤ 0) := by
      have : (j : Int) + 1 < n := by exact_mod_cast hj
      omega
    have h2 : j < cap := by omega
    simp [Requeue, h1, h2]
  refine ⟨fun j hj => ⟨step j hj, ?_⟩, ?_, ?_⟩
  · exact requeueIter_closed_form n cap hcap (j + 1) hj
  · rw [requeueIter_closed_form n cap hcap (n - 1) (by omega)]
    have h1 : (n : Int) - (n - 1 : Nat) - 1 ≤ 0 := by
      have : ((n - 1 : Nat) : Int) = (n : Int) - 1 := by push_cast [hn]; ring
      omega
    simp [Requeue, h1]
  · obtain ⟨m, rfl⟩ : ∃ m, n = m + 1 := ⟨n - 1, by omega⟩
    rw [requeueIter, requeueIter_closed_form (m + 1) cap hcap m (by omega)]
    have h1 : ((m : Int) + 1) - m - 1 ≤ 0 := by omega
    simp only [Requeue, Nat.cast_add, Nat.cast_one, Bool.false_eq_true,
      if_false, h1, if_true]
    simp [Close, RunContextState.mk.injEq]

/-- Closed witness for `C2_requeue_amended` with `MaxGradeRetries = 3`. -/
theorem C2_requeue_amended_witness :
    (Requeue false (requeueIter 0 (NewEmptyRunContext 3 0 5))).1 = true ∧
    (Requeue false (requeueIter 2 (NewEmptyRunContext 3 0 5))).1 = false ∧
    (requeueIter 3 (NewEmptyRunContext 3 0 5)).closeCount = 1 := by
  obtain ⟨hsucc, hlast, hstate⟩ := C2_requeue_amended 3 5 (by decide) (by decide)
  refine ⟨?_, ?_, ?_⟩
  · exact (hsucc 0 (by decide)).1
  · simpa using hlast
  · exact congrArg RunContextState.closeCount hstate

/-- C2: counterexample. The claim says that with `tries = MaxGradeRetries`
each of the first `k ≤ MaxGradeRetries` calls to `Requeue(false)` returns
true and only the `(MaxGradeRetries+1)`-th call closes the context. With
`MaxGradeRetries = 2` the second call already decrements `tries` to zero,
closes the context and returns false. -/
theorem C2_counterexample :
    (Requeue false (requeueIter 1 (NewEmptyRunContext 2 0 10))).1 = false ∧
    (requeueIter 2 (NewEmptyRunContext 2 0 10)).closed = true := by decide

/-! ## Grade pipeline (runner, `Grade`) -/

/-- Sandbox run metadata restricted to the fields the grading pipeline
aggregates; the Go `float64` times are modelled as rationals and the `int64`
memory as `Int`. -/
structure RunMetadata where
  verdict : String
  time : ℚ
  wallTime : ℚ
  memory : Int
deriving DecidableEq, Repr

/-- Modelled from the spec: `max64`, the 64-bit maximum helper called by the
aggregation loop of `Grade`, lives in a part of the repository outside the
provided sources; per the design notes it returns the larger of its two
arguments. -/
def max64 (a b : Int) : Int :=
  if a > b then a else b

/-- Roles a binary can play, as in the source's `binaryType`. -/
inductive BinaryKind where
  | problemsetter
  | contestant
  | validator
deriving DecidableEq, Repr

/-- Accumulator of the per-case aggregation loop of `Grade`: the
problem-setter metadata is remembered separately, the first non-OK
contestant metadata is kept in `chosen`, and times, wall-times and memory
are accumulated over the contestant binaries. -/
structure AggregationState where
  parentMetadata : Option RunMetadata
  chosen : RunMetadata
  chosenEmpty : Bool
  totalTime : ℚ
  totalWallTime : ℚ
  totalMemory : Int
deriving DecidableEq, Repr

/-- Initial aggregation state (`chosenMetadata = RunMetadata{Verdict: "OK"}`
and all totals zero). -/
def aggregationInit : AggregationState :=
  { parentMetadata := none,
    chosen := { verdict := "OK", time := 0, wallTime := 0, memory := 0 },
    chosenEmpty := true,
    totalTime := 0, totalWallTime := 0, totalMemory := 0 }

/-- Translation of the body of the aggregation loop, consuming one message
from the per-case channel: problem-setter metadata is stored aside; for the
other binaries the first non-OK verdict wins, `Time` and `WallTime` are
added, and memory is folded with `totalMemory += max64(totalMemory,
memory)`. -/
def aggregationStep (st : AggregationState) (ir : RunMetadata × BinaryKind) :
    AggregationState :=
  match ir.2 with
  | .problemsetter => { st with parentMetadata := some ir.1 }
  | _ =>
    let st :=
      if ir.1.verdict ≠ "OK" ∧ st.chosenEmpty = true then
        { st with chosen := ir.1, chosenEmpty := false }
      else st
    { st with totalTime := st.totalTime + ir.1.time,
              totalWallTime := st.totalWallTime + ir.1.wallTime,
              totalMemory := st.totalMemory + max64 st.totalMemory ir.1.memory }

/-- Translation of the per-case aggregation of `Grade`: fold the received
messages and install the accumulated totals into the chosen metadata. -/
def aggregateCase (results : List (RunMetadata × BinaryKind)) : RunMetadata :=
  let st := results.foldl aggregationStep aggregationInit
  { st.chosen with time := st.totalTime, wallTime := st.totalWallTime,
                   memory := st.totalMemory }

/-- Two contestant binaries, 64 memory units each: the failing input for the
memory-aggregation claim. -/
def c3Metas : List (RunMetadata × BinaryKind) :=
  [({ verdict := "OK", time := 1, wallTime := 2, memory := 64 },
    BinaryKind.contestant),
   ({ verdict := "OK", time := 3, wallTime := 4, memory := 64 },
    BinaryKind.contestant)]

/-- C3: behavior of the code at the failing input. The claim (and §4.4.5 of
the spec) says the aggregated `Memory` is the running maximum across
contestant binaries and never exceeds the largest individual value; the code
computes `totalMemory += max64(totalMemory, memory)`, so two contestants of
64 memory units each aggregate to 128, twice the maximum — while `Time` and
`WallTime` are summed as claimed. -/
theorem C3_memory_aggregation_bug :
    aggregateCase c3Metas =
      { verdict := "OK", time := 4, wallTime := 6, memory := 128 } ∧
    max64 64 64 = 64 ∧ (128 : Int) ≠ 64 := by
  refine ⟨?_, by decide, by decide⟩
  norm_num [aggregateCase, aggregationStep, aggregationInit, c3Metas, max64]

/-- Inputs of the validation loop for one case: the runtime verdict from the
execution phase, the declared case weight, and the score `CalculateScore`
yields for it when the case gets validated. -/
structure ValidationCase where
  verdict : String
  weight : ℚ
  runScore : ℚ
deriving DecidableEq, Repr

/-- Final verdict and score recorded for one case by the validation loop. -/
structure ValidatedCase where
  verdict : String
  score : ℚ
deriving DecidableEq, Repr

/-- Per-group accumulator of the validation loop (`correct` and `score`). -/
structure GroupAccumulator where
  correct : Bool
  score : ℚ
deriving DecidableEq, Repr

/-- Translation of the body of the validation loop for one case: only cases
whose runtime verdict is `OK` are validated; the weighted score is
accumulated, `runScore = 1` yields `AC`, `runScore = 0` yields `WA` and
clears `correct`, anything in between yields `PA`. Cases whose runtime
verdict is not `OK` are left untouched (and the `correct` flag with them). -/
def validateCaseStep (c : ValidationCase) (acc : GroupAccumulator) :
    GroupAccumulator × ValidatedCase :=
  if c.verdict = "OK" then
    let acc := { acc with score := acc.score + c.runScore * c.weight }
    if c.runScore = 1 then
      (acc, { verdict := "AC", score := c.runScore })
    else if c.runScore = 0 then
      ({ acc with correct := false }, { verdict := "WA", score := c.runScore })
    else
      (acc, { verdict := "PA", score := c.runScore })
  else
    (acc, { verdict := c.verdict, score := 0 })

/-- One step of the fold over a group's cases, collecting the case results
in order. -/
def validateGroupStep (p : GroupAccumulator × List ValidatedCase)
    (c : ValidationCase) : GroupAccumulator × List ValidatedCase :=
  ((validateCaseStep c p.1).1, p.2 ++ [(validateCaseStep c p.1).2])

/-- Translation of the per-group validation pass of `Grade`: start from
`correct = true`, `score = 0`, fold over the group's cases, and award the
accumulated score only when `correct` survived (the group score was
initialized to 0 in the execution phase). -/
def validateGroup (cases : List ValidationCase) : ℚ × List ValidatedCase :=
  let r := cases.foldl validateGroupStep ({ correct := true, score := 0 }, [])
  (if r.1.correct then r.1.score else 0, r.2)

/-- Group with one accepted case of weight 1 and one case that timed out:
the counterexample input for the group-score claim. -/
def c1Group : List ValidationCase :=
  [{ verdict := "OK", weight := 1, runScore := 1 },
   { verdict := "TLE", weight := 1, runScore := 0 }]

/-- C1: counterexample. The claim says that a case verdict in
`{WA,RTE,TLE,MLE,OLE,RFE,JE}` forces the group score to 0. In the code only
a validated case with `runScore = 0` (verdict `WA`) clears the `correct`
flag; a case skipped for a non-OK runtime verdict such as `TLE` contributes
no score but leaves `correct` set, so this group scores 1 despite its `TLE`
case. -/
theorem C1_counterexample :
    validateGroup c1Group =
      (1, [{ verdict := "AC", score := 1 }, { verdict := "TLE", score := 0 }]) ∧
    (1 : ℚ) ≠ 0 := by
  constructor
  · norm_num [validateGroup, validateGroupStep, validateCaseStep, c1Group]
    simp
  · norm_num

/-- Characterization of the validation fold: the `correct` flag survives
exactly when no validated case scored zero, and the accumulated score is the
weighted sum of the scores of the validated cases. -/
theorem validateGroup_foldl_spec :
    ∀ (cases : List ValidationCase) (acc : GroupAccumulator)
      (outs : List ValidatedCase),
      ((cases.foldl validateGroupStep (acc, outs)).1.correct = true ↔
        (acc.correct = true ∧ ∀ c ∈ cases, c.verdict = "OK" → c.runScore ≠ 0)) ∧
      (cases.foldl validateGroupStep (acc, outs)).1.score =
        acc.score +
          ((cases.filter (fun c => c.verdict == "OK")).map
            (fun c => c.runScore * c.weight)).sum := by
  intro cases
  induction cases with
  | nil =>
    intro acc outs
    simp
  | cons c cs ih =>
    intro acc outs
    simp only [List.foldl_cons, validateGroupStep]
    obtain ⟨ihc, ihs⟩ :=
      ih (validateCaseStep c acc).1 (outs ++ [(validateCaseStep c acc).2])
    constructor
    · rw [ihc]
      by_cases hv : c.verdict = "OK"
      · by_cases h0 : c.runScore = 0
        · have h1 : ¬c.runScore = 1 := by rw [h0]; norm_num
          simp [validateCaseStep, hv, h0, h1]
        · by_cases h1 : c.runScore = 1
          · simp [validateCaseStep, hv, h0, h1]
          · simp [validateCaseStep, hv, h0, h1]
      · simp [validateCaseStep, hv]
    · rw [ihs]
      by_cases hv : c.verdict = "OK"
      · by_cases h1 : c.runScore = 1
        · simp [validateCaseStep, hv, h1]
          ring
        · by_cases h0 : c.runScore = 0
          · simp [validateCaseStep, hv, h0, h1]
          · simp [validateCaseStep, hv, h0, h1]
            ring
      · simp [validateCaseStep, hv]

/-- C1 (amended): a group's score is forced to 0 exactly by a validated case
that scored zero — i.e. by a case whose runtime verdict was `OK` and whose
validation verdict becomes `WA`. Cases whose runtime verdict lies in
`{RTE,TLE,MLE,OLE,RFE,JE}` are skipped by the validation pass: they
contribute no score, but they do not zero the group, whose score is then the
weighted sum over the validated cases. -/
theorem C1_group_score_amended :
    ∀ cases : List ValidationCase,
      ((∃ c ∈ cases, c.verdict = "OK" ∧ c.runScore = 0) →
        (validateGroup cases).1 = 0) ∧
      ((∀ c ∈ cases, c.verdict = "OK" → c.runScore ≠ 0) →
        (validateGroup cases).1 =
          ((cases.filter (fun c => c.verdict == "OK")).map
            (fun c => c.runScore * c.weight)).sum) := by
  intro cases
  obtain ⟨hc, hs⟩ := validateGroup_foldl_spec cases ⟨true, 0⟩ []
  constructor
  · rintro ⟨c, hcin, hcv, hcs⟩
    have hfalse :
        ¬((cases.foldl validateGroupStep (⟨true, 0⟩, [])).1.correct = true) := by
      rw [hc]
      rintro ⟨_, hall⟩
      exact hall c hcin hcv hcs
    simp only [validateGroup]
    rw [if_neg hfalse]
  · intro hall
    have hct : (cases.foldl validateGroupStep (⟨true, 0⟩, [])).1.correct = true :=
      hc.mpr ⟨rfl, hall⟩
    simp only [validateGroup]
    rw [if_pos hct, hs]
    norm_num

/-- Closed witness for `C1_group_score_amended` on two one-case groups. -/
theorem C1_group_score_amended_witness :
    (validateGroup [{ verdict := "OK", weight := 1, runScore := 0 }]).1 = 0 ∧
    (validateGroup [{ verdict := "OK", weight := 1, runScore := 1 }]).1 =
      (([{ verdict := "OK", weight := 1, runScore := 1 }].filter
        (fun c : ValidationCase => c.verdict == "OK")).map
          (fun c => c.runScore * c.weight)).sum := by
  constructor
  · exact (C1_group_score_amended _).1
      ⟨{ verdict := "OK", weight := 1, runScore := 0 }, by simp, rfl, rfl⟩
  · refine (C1_group_score_amended _).2 ?_
    intro c hcin _
    rw [List.mem_singleton] at hcin
    rw [hcin]
    norm_num

/-- Slice of `RunResult` read and written by the final verdict rewrite at
the end of `Grade`. -/
structure FinalState where
  verdict : String
  score : ℚ
  contestScore : ℚ
  maxScore : ℚ
deriving DecidableEq, Repr

/-- Translation of the final rewrite of `Grade`: `PA` with a total score of
exactly 0 becomes `WA`; an overall verdict still `OK` becomes `AC` with
`Score = 1` and `ContestScore = MaxScore`. -/
def finalizeRunResult (r : FinalState) : FinalState :=
  if r.verdict = "PA" ∧ r.score = 0 then
    { r with verdict := "WA" }
  else if r.verdict = "OK" then
    { r with verdict := "AC", score := 1, contestScore := r.maxScore }
  else r

/-- C5: at the end of `Grade`, an overall verdict still `OK` is rewritten to
`AC` with `Score` forced to 1 and `ContestScore` forced to `MaxScore`, and
an overall verdict `PA` whose total score is exactly 0 is rewritten to `WA`
(leaving the scores as they are). -/
theorem C5_final_rewrite :
    ∀ r : FinalState,
      (r.verdict = "OK" →
        finalizeRunResult r =
          { r with verdict := "AC", score := 1, contestScore := r.maxScore }) ∧
      (r.verdict = "PA" → r.score = 0 →
        finalizeRunResult r = { r with verdict := "WA" }) := by
  intro r
  constructor
  · intro h
    simp [finalizeRunResult, h]
  · intro h h0
    rw [finalizeRunResult, if_pos ⟨h, h0⟩]

/-- Closed witness for `C5_final_rewrite` on two concrete results. -/
theorem C5_final_rewrite_witness :
    finalizeRunResult ⟨"OK", 0, 0, 100⟩ = ⟨"AC", 1, 100, 100⟩ ∧
    finalizeRunResult ⟨"PA", 0, 3, 100⟩ = ⟨"WA", 0, 3, 100⟩ := by
  exact ⟨(C5_final_rewrite ⟨"OK", 0, 0, 100⟩).1 rfl,
    (C5_final_rewrite ⟨"PA", 0, 3, 100⟩).2 rfl rfl⟩

/-- Name and language of a binary in the compile plan (the fields the
compile-error harvesting reads). -/
structure BinaryPlan where
  name : String
  language : String
deriving DecidableEq, Repr

/-- Outcome of one `sandbox.Compile` call: whether the sandbox returned an
error, the verdict of the returned compile metadata, and the contents of the
`compile.out` and `compile.err` files it produced. -/
structure CompileOutcome where
  errored : Bool
  verdict : String
  outContents : String
  errContents : String
deriving DecidableEq, Repr

/-- Compile-failure test from `Grade`:
`err != nil || compileMeta.Verdict != "OK"`. -/
def compileFailed (o : CompileOutcome) : Bool :=
  o.errored || o.verdict != "OK"

/-- Translation of the compile loop of `Grade`: binaries are compiled in
order and the loop stops at the first failing one. -/
def compilePhase :
    List (BinaryPlan × CompileOutcome) → Option (BinaryPlan × CompileOutcome)
  | [] => none
  | bo :: rest => if compileFailed bo.2 then some bo else compilePhase rest

/-- Result slice of `Grade` observed by the compile-error path: the overall
verdict, the compile-error text, and the per-group results (scores with case
outcomes). -/
structure GradeOutcome where
  verdict : String
  compileError : Option String
  groups : List (ℚ × List ValidatedCase)
deriving DecidableEq, Repr

/-- Compile-error text harvested on failure: the binary's name, `":\n"`, and
the contents of `compile.out` for the legacy `pas` language, of
`compile.err` otherwise. -/
def compileErrorText (b : BinaryPlan) (o : CompileOutcome) : String :=
  b.name ++ ":\n" ++
    (if b.language = "pas" then o.outContents else o.errContents)

/-- Compile phase of `Grade` wrapped with its early return: on the first
compile failure the verdict becomes `CE`, the harvested compile error is
recorded and `Grade` returns before running any case (no group results);
otherwise the rest of the pipeline produces the result. -/
def gradeCompile (bins : List (BinaryPlan × CompileOutcome))
    (rest : GradeOutcome) : GradeOutcome :=
  match compilePhase bins with
  | some (b, o) =>
    { verdict := "CE", compileError := some (compileErrorText b o),
      groups := [] }
  | none => rest

/-- Sequential search of `compilePhase` agrees with `List.find?`. -/
theorem compilePhase_eq_find :
    ∀ bins : List (BinaryPlan × CompileOutcome),
      compilePhase bins = bins.find? (fun bo => compileFailed bo.2) := by
  intro bins
  induction bins with
  | nil => rfl
  | cons bo rest ih =>
    rw [compilePhase, List.find?_cons]
    by_cases h : compileFailed bo.2 = true
    · simp [h]
    · simp only [Bool.not_eq_true] at h
      simp [h, ih]

/-- C6: if any binary fails to compile (sandbox error or a non-OK compile
verdict), `Grade` sets the top-level verdict to `CE`, sets the compile error
to the failing binary's name followed by `":\n"` and the contents of
`compile.out` when that binary's language is `pas` (of `compile.err`
otherwise), and returns without executing any case: the result carries no
group results. -/
theorem C6_compile_error :
    ∀ (bins : List (BinaryPlan × CompileOutcome)) (rest : GradeOutcome),
      (∃ bo ∈ bins, compileFailed bo.2 = true) →
      ∃ b o, bins.find? (fun bo => compileFailed bo.2) = some (b, o) ∧
        gradeCompile bins rest =
          { verdict := "CE",
            compileError := some (b.name ++ ":\n" ++
              (if b.language = "pas" then o.outContents else o.errContents)),
            groups := [] } := by
  intro bins rest hex
  have hsome : (bins.find? (fun bo => compileFailed bo.2)).isSome := by
    rw [List.find?_isSome]
    obtain ⟨bo, hmem, hfail⟩ := hex
    exact ⟨bo, hmem, hfail⟩
  obtain ⟨⟨b, o⟩, hfind⟩ := Option.isSome_iff_exists.mp hsome
  refine ⟨b, o, hfind, ?_⟩
  rw [gradeCompile, compilePhase_eq_find, hfind]
  rfl

/-- Concrete compile plan used by the witness: one succeeding binary
followed by a failing Pascal one. -/
def c6Bins : List (BinaryPlan × CompileOutcome) :=
  [({ name := "Main", language := "cpp" },
    { errored := false, verdict := "OK",
      outContents := "ignored", errContents := "ignored" }),
   ({ name := "validator", language := "pas" },
    { errored := false, verdict := "CE",
      outContents := "pas error", errContents := "empty" })]

/-- Closed witness for `C6_compile_error` on `c6Bins`. -/
theorem C6_compile_error_witness :
    ∃ b o, c6Bins.find? (fun bo => compileFailed bo.2) = some (b, o) ∧
      gradeCompile c6Bins
          { verdict := "AC", compileError := none, groups := [(1, [])] } =
        { verdict := "CE",
          compileError := some (b.name ++ ":\n" ++
            (if b.language = "pas" then o.outContents else o.errContents)),
          groups := [] } := by
  exact C6_compile_error c6Bins
    { verdict := "AC", compileError := none, groups := [(1, [])] }
    ⟨({ name := "validator", language := "pas" },
      { errored := false, verdict := "CE",
        outContents := "pas error", errContents := "empty" }),
      by simp [c6Bins], by decide⟩

/-! ## Output-only decoder (runner, `parseOutputOnlyFile`) -/

/-- Characters after the last slash (Go's
`fileName[strings.LastIndex(fileName, "/")+1:]`), kept as a structurally
recursive fold so that it evaluates inside the kernel. -/
def afterLastSlash (cs : List Char) : List Char :=
  cs.foldl (fun acc c => if c = '/' then [] else acc ++ [c]) []

/-- Basename of a zip entry: the part after the last `/`-separator, the
whole name when there is none. -/
def baseName (s : String) : String :=
  String.mk (afterLastSlash s.toList)

/-- Translation of `strings.HasSuffix`, on the character lists. -/
def hasSuffixStr (s pat : String) : Bool :=
  pat.toList.isSuffixOf s.toList

/-- One entry of the zip archive inside an output-only submission: its full
path inside the archive, its declared uncompressed size, and its contents
(the claim concerns readable archives, so reads are modelled as always
succeeding). -/
structure ZipEntry where
  name : String
  uncompressedSize : Nat
  contents : String
deriving DecidableEq, Repr

/-- Form taken by an output-only submission source: a plain string that is
not a data-URL, a data-URL wrapping a readable zip archive, or a data-URL
whose payload cannot be opened as a zip. -/
inductive OutputOnlySource where
  | raw (data : String)
  | zipped (entries : List ZipEntry)
  | badZip
deriving Repr

/-- Slice of the problem settings read by `parseOutputOnlyFile`: the case
names of every group, and `Limits.OutputLimit`. -/
structure OutputOnlySettings where
  caseNames : List (List String)
  outputLimit : Nat
deriving DecidableEq, Repr

/-- Translation of the `expectedFileNames` set: `<caseName>.out` for every
case of every group declared by the problem. -/
def expectedFileNames (settings : OutputOnlySettings) : List String :=
  settings.caseNames.flatten.map (fun name => name ++ ".out")

/-- Translation of the body of the entry loop of `parseOutputOnlyFile`:
entries whose full name does not end in `.out`, or whose basename is not an
expected case file, are skipped; entries larger than the output limit map
their basename to the empty string; all other entries map their basename to
their contents. -/
def processZipEntry (settings : OutputOnlySettings)
    (result : String → Option String) (f : ZipEntry) :
    String → Option String :=
  if hasSuffixStr f.name ".out" = false then result
  else
    let fileName := baseName f.name
    if fileName ∉ expectedFileNames settings then result
    else if settings.outputLimit < f.uncompressedSize then
      fun k => if k = fileName then some "" else result k
    else
      fun k => if k = fileName then some f.contents else result k

/-- Translation of `parseOutputOnlyFile`: a source that is not a data-URL
becomes the single-entry map `Main.out ↦ source`; a readable zip is folded
entry by entry into a map (modelled as a function into `Option`); a data-URL
that is not a readable zip is the error path. -/
def parseOutputOnlyFile (src : OutputOnlySource)
    (settings : OutputOnlySettings) :
    Except Unit (String → Option String) :=
  match src with
  | .raw data => .ok (fun k => if k = "Main.out" then some data else none)
  | .zipped entries =>
    .ok (entries.foldl (processZipEntry settings) (fun _ => none))
  | .badZip => .error ()

/-- Acceptance test distilled from the skip conditions of the entry loop. -/
def acceptedEntry (settings : OutputOnlySettings) (f : ZipEntry) : Bool :=
  hasSuffixStr f.name ".out" &&
    decide (baseName f.name ∈ expectedFileNames settings)

/-- Pointwise effect of one entry on the accumulated map. -/
theorem processZipEntry_apply (settings : OutputOnlySettings)
    (m0 : String → Option String) (f : ZipEntry) (k : String) :
    processZipEntry settings m0 f k =
      if (acceptedEntry settings f && (baseName f.name == k)) = true then
        some (if settings.outputLimit < f.uncompressedSize then ""
          else f.contents)
      else m0 k := by
  rw [processZipEntry, acceptedEntry]
  by_cases hsuf : hasSuffixStr f.name ".out" = false
  · simp [hsuf]
  · rw [Bool.not_eq_false] at hsuf
    by_cases hmem : baseName f.name ∈ expectedFileNames settings
    · by_cases hk : k = baseName f.name
      · by_cases hsize : settings.outputLimit < f.uncompressedSize <;>
          simp [hsuf, hmem, hk, hsize]
      · have hk2 : (baseName f.name == k) = false :=
          beq_eq_false_iff_ne.mpr fun e => hk e.symm
        by_cases hsize : settings.outputLimit < f.uncompressedSize <;>
          simp [hsuf, hmem, hk, hk2, hsize]
    · simp [hsuf, hmem]

/-- Characterization of the zip fold: a key is bound by the last accepted
entry whose basename equals it, and falls through to the initial map when
there is none. -/
theorem parseZip_char (settings : OutputOnlySettings) (k : String) :
    ∀ (entries : List ZipEntry) (m0 : String → Option String),
      (entries.foldl (processZipEntry settings) m0) k =
        match (entries.filter
            (fun f => acceptedEntry settings f &&
              (baseName f.name == k))).getLast? with
        | some f =>
          some (if settings.outputLimit < f.uncompressedSize then ""
            else f.contents)
        | none => m0 k := by
  intro entries
  induction entries using List.reverseRecOn with
  | nil => intro m0; rfl
  | append_singleton l f ih =>
    intro m0
    rw [List.foldl_append, List.foldl_cons, List.foldl_nil,
      processZipEntry_apply]
    by_cases hp : (acceptedEntry settings f && (baseName f.name == k)) = true
    · rw [if_pos hp, List.filter_append]
      simp [hp, List.getLast?_concat]
    · rw [if_neg hp, ih m0, List.filter_append]
      simp only [Bool.not_eq_true] at hp
      simp [hp]

/-- C7: a source that is not a data-URL decodes to the single-entry map
`{Main.out ↦ source}`; a data-URL with a readable zip decodes to a map whose
keys are exactly the basenames of the entries that end in `.out` and name an
expected `<caseName>.out` file, each bound to the entry's contents except
that an accepted entry larger than `Limits.OutputLimit` is bound to the
empty string (stated for archives whose accepted basenames are distinct —
with duplicates the last entry wins); all other entries are omitted. -/
theorem C7_parse_output_only :
    ∀ settings : OutputOnlySettings,
      (∀ data : String, ∃ m,
        parseOutputOnlyFile (OutputOnlySource.raw data) settings =
          Except.ok m ∧
        ∀ k, m k = if k = "Main.out" then some data else none) ∧
      (∀ entries : List ZipEntry, ∃ m,
        parseOutputOnlyFile (OutputOnlySource.zipped entries) settings =
          Except.ok m ∧
        (∀ k, (m k).isSome = true ↔
          ∃ f ∈ entries, acceptedEntry settings f = true ∧
            baseName f.name = k) ∧
        ((entries.filter (fun f => acceptedEntry settings f)).Pairwise
            (fun f g => baseName f.name ≠ baseName g.name) →
          ∀ f ∈ entries, acceptedEntry settings f = true →
            m (baseName f.name) =
              some (if settings.outputLimit < f.uncompressedSize then ""
                else f.contents))) := by
  intro settings
  constructor
  · intro data
    exact ⟨_, rfl, fun k => rfl⟩
  · intro entries
    refine ⟨_, rfl, ?_, ?_⟩
    · intro k
      rw [parseZip_char]
      rcases hlast : (entries.filter
          (fun f => acceptedEntry settings f &&
            (baseName f.name == k))).getLast? with _ | f
      · simp only [Option.isSome_none, Bool.false_eq_true, false_iff]
        rw [List.getLast?_eq_none_iff] at hlast
        rintro ⟨f, hf, hacc, hbase⟩
        have : f ∈ (entries.filter
            (fun f => acceptedEntry settings f && (baseName f.name == k))) :=
          List.mem_filter.mpr ⟨hf, by simp [hacc, hbase]⟩
        rw [hlast] at this
        cases this
      · simp only [Option.isSome_some, true_iff]
        have hfmem : f ∈ (entries.filter
            (fun f => acceptedEntry settings f && (baseName f.name == k))) :=
          List.mem_of_mem_getLast? (by rw [hlast]; rfl)
        obtain ⟨hfin, hcond⟩ := List.mem_filter.mp hfmem
        rw [Bool.and_eq_true] at hcond
        exact ⟨f, hfin, hcond.1, by simpa using hcond.2⟩
    · intro hpw f hf hacc
      rw [parseZip_char]
      have hfk : f ∈ entries.filter
          (fun g => acceptedEntry settings g &&
            (baseName g.name == baseName f.name)) :=
        List.mem_filter.mpr ⟨hf, by simp [hacc]⟩
      have hsub : entries.filter
          (fun g => acceptedEntry settings g &&
            (baseName g.name == baseName f.name)) =
          (entries.filter (fun g => acceptedEntry settings g)).filter
            (fun g => baseName g.name == baseName f.name) := by
        rw [List.filter_filter]
        exact List.filter_congr fun a _ => Bool.and_comm _ _
      have hpw2 : (entries.filter
          (fun g => acceptedEntry settings g &&
            (baseName g.name == baseName f.name))).Pairwise
          (fun f g => baseName f.name ≠ baseName g.name) := by
        rw [hsub]
        exact hpw.filter _
      rcases hK : entries.filter
          (fun g => acceptedEntry settings g &&
            (baseName g.name == baseName f.name)) with _ | ⟨a, rest⟩
      · rw [hK] at hfk
        cases hfk
      · have hrest : rest = [] := by
          rcases rest with _ | ⟨b, rest2⟩
          · rfl
          · exfalso
            rw [hK] at hpw2
            have hab := (List.pairwise_cons.mp hpw2).1 b
              (List.mem_cons_self _ _)
            have ha : a ∈ entries.filter
                (fun g => acceptedEntry settings g &&
                  (baseName g.name == baseName f.name)) := by
              rw [hK]; exact List.mem_cons_self _ _
            have hb : b ∈ entries.filter
                (fun g => acceptedEntry settings g &&
                  (baseName g.name == baseName f.name)) := by
              rw [hK]
              exact List.mem_cons_of_mem _ (List.mem_cons_self _ _)
            have ha2 := (List.mem_filter.mp ha).2
            have hb2 := (List.mem_filter.mp hb).2
            rw [Bool.and_eq_true] at ha2 hb2
            have ha3 : baseName a.name = baseName f.name := by
              simpa using ha2.2
            have hb3 : baseName b.name = baseName f.name := by
              simpa using hb2.2
            exact hab (ha3.trans hb3.symm)
        rw [hK, hrest] at hfk
        rw [List.mem_singleton] at hfk
        rw [hfk, hrest]
        rfl

/-- Settings used by the closed witness of the decoder: cases `a` and `b`,
output limit 10. -/
def c7Settings : OutputOnlySettings :=
  { caseNames := [["a"], ["b"]], outputLimit := 10 }

/-- Archive used by the closed witness of the decoder: one nested accepted
entry, one oversized accepted entry, and one rejected entry. -/
def c7Entries : List ZipEntry :=
  [{ name := "dir/a.out", uncompressedSize := 3, contents := "xyz" },
   { name := "big/b.out", uncompressedSize := 11, contents := "huge" },
   { name := "junk.txt", uncompressedSize := 1, contents := "no" }]

/-- Closed witness for `C7_parse_output_only` on `c7Entries`. -/
theorem C7_parse_output_only_witness :
    ∃ m, parseOutputOnlyFile (OutputOnlySource.zipped c7Entries) c7Settings =
        Except.ok m ∧
      m "a.out" = some "xyz" ∧ m "b.out" = some "" ∧
      (m "junk.txt").isSome = false ∧
      ∃ m2, parseOutputOnlyFile (OutputOnlySource.raw "hello") c7Settings =
          Except.ok m2 ∧ m2 "Main.out" = some "hello" := by
  obtain ⟨hraw, hzip⟩ := C7_parse_output_only c7Settings
  obtain ⟨m, hok, hkeys, hvals⟩ := hzip c7Entries
  have hpw : (c7Entries.filter (fun f => acceptedEntry c7Settings f)).Pairwise
      (fun f g => baseName f.name ≠ baseName g.name) := by
    have : c7Entries.filter (fun f => acceptedEntry c7Settings f) =
        [{ name := "dir/a.out", uncompressedSize := 3, contents := "xyz" },
         { name := "big/b.out", uncompressedSize := 11, contents := "huge" }] := by
      decide
    rw [this]
    refine List.pairwise_cons.mpr ⟨?_, List.pairwise_singleton _ _⟩
    intro g hg
    rw [List.mem_singleton] at hg
    rw [hg]
    decide
  have ha := hvals hpw
    { name := "dir/a.out", uncompressedSize := 3, contents := "xyz" }
    (by simp [c7Entries]) (by decide)
  have hb := hvals hpw
    { name := "big/b.out", uncompressedSize := 11, contents := "huge" }
    (by simp [c7Entries]) (by decide)
  have hj : (m "junk.txt").isSome = false := by
    rw [Bool.eq_false_iff]
    intro hsome
    obtain ⟨f, hfin, hacc, hbase⟩ := (hkeys "junk.txt").mp hsome
    simp only [c7Entries, List.mem_cons, List.not_mem_nil, or_false] at hfin
    rcases hfin with rfl | rfl | rfl
    · exact absurd hbase (by decide)
    · exact absurd hbase (by decide)
    · exact absurd hacc (by decide)
  obtain ⟨m2, hok2, happ⟩ := hraw "hello"
  refine ⟨m, hok, ?_, ?_, hj, m2, hok2, by rw [happ "Main.out"]; simp⟩
  · have : baseName "dir/a.out" = "a.out" := by decide
    rw [this] at ha
    rw [ha]
    norm_num [c7Settings]
  · have : baseName "big/b.out" = "b.out" := by decide
    rw [this] at hb
    rw [hb]
    norm_num [c7Settings]

/-! ## Run injection (grader frontend, `v1CompatInjectRuns`) -/

/-- Slice of the per-problem settings read by `v1CompatInjectRuns` when it
assigns the queue priority. -/
structure InjectedProblem where
  slow : Bool
deriving DecidableEq, Repr

/-- Translation of the loop of `v1CompatInjectRuns` over the requested
GUIDs: building a run context can fail (`none`), which aborts the loop with
an error after the earlier runs were already enqueued; otherwise the run is
enqueued with priority Low when the problem is marked `Slow` and with the
caller's requested priority otherwise. The result lists the enqueued runs
with their assigned priorities, together with the success flag. -/
def v1CompatInjectRuns :
    List (Option InjectedProblem) → QPriority →
      List (InjectedProblem × QPriority) × Bool
  | [], _ => ([], true)
  | none :: _, _ => ([], false)
  | some info :: rest, priority =>
    let assigned := if info.slow then QPriority.low else priority
    let r := v1CompatInjectRuns rest priority
    ((info, assigned) :: r.1, r.2)

/-- C10: every run enqueued through `v1CompatInjectRuns` is enqueued at Low
priority when its problem's settings are marked `Slow`, and at exactly the
caller's requested priority otherwise. -/
theorem C10_inject_priority :
    ∀ (guids : List (Option InjectedProblem)) (priority : QPriority)
      (info : InjectedProblem) (p : QPriority),
      (info, p) ∈ (v1CompatInjectRuns guids priority).1 →
      p = if info.slow then QPriority.low else priority := by
  intro guids
  induction guids with
  | nil =>
    intro priority info p h
    cases h
  | cons g rest ih =>
    intro priority info p h
    rcases g with _ | info2
    · cases h
    · rw [v1CompatInjectRuns] at h
      rcases List.mem_cons.mp h with he | hm
      · rw [Prod.mk.injEq] at he
        rw [he.2, he.1]
      · exact ih priority info p hm

/-- Closed witness for `C10_inject_priority`: a slow and a fast problem
injected at Normal priority. -/
theorem C10_inject_priority_witness :
    QPriority.low =
      (if ({ slow := true } : InjectedProblem).slow then QPriority.low
        else QPriority.normal) ∧
    QPriority.normal =
      (if ({ slow := false } : InjectedProblem).slow then QPriority.low
        else QPriority.normal) := by
  constructor
  · exact C10_inject_priority [some { slow := true }, some { slow := false }]
      QPriority.normal { slow := true } QPriority.low (by simp [v1CompatInjectRuns])
  · exact C10_inject_priority [some { slow := true }, some { slow := false }]
      QPriority.normal { slow := false } QPriority.normal
      (by simp [v1CompatInjectRuns])
